import Mathlib

/-!
Verification development for the bracket-tree subsystem of the
obsidian-ling-gloss repository: the notation parser (src/tree/parse.ts),
the layout engine (src/tree/layout.ts) and the movement resolver plus arc
geometry (src/tree/render.ts), shallowly embedded as executable Lean
definitions.  Each definition is translated from the TypeScript source;
imperative mutation is rendered as explicit state passing, JavaScript
numbers as rationals, and thrown exceptions as `Except String` carrying
the exact thrown message strings.
-/

/-- Sign of a feature annotation; the source type is the string union
`"+" | "-"` (parse.ts, type Feature). -/
inductive Sign where
  | plus
  | minus
deriving DecidableEq, Repr

/-- Rendering of a sign back to its source string, used when layout
measures the feature badge text. -/
def Sign.str : Sign → String
  | .plus => "+"
  | .minus => "-"

/-- Feature annotation `{ sign, name }` (parse.ts, type Feature). -/
structure Feature where
  sign : Sign
  name : String
deriving DecidableEq, Repr

/-- Parsed tree node (parse.ts, type Node): label, ordered feature list,
optional movement identifier, ordered children.  The source field `id` is
`string | undefined`; it is modelled as `Option String`, where the parser
may produce `some ""` (a label ending in the hash character). -/
inductive Node where
  | mk (label : String) (features : List Feature) (id : Option String)
       (children : List Node)

def Node.label : Node → String
  | .mk l _ _ _ => l

def Node.features : Node → List Feature
  | .mk _ fs _ _ => fs

def Node.id : Node → Option String
  | .mk _ _ i _ => i

def Node.children : Node → List Node
  | .mk _ _ _ cs => cs

/-- Token (parse.ts, type Tok).  The tokenizer only ever pushes the kinds
`sym`, `lbr` and `rbr` (a quoted span is pushed with kind `sym`), so the
unused source kind `quote` is omitted.  The `value` field of bracket
tokens is the bracket character itself and is never read, so only `sym`
carries its string here. -/
inductive Tok where
  | sym (v : String)
  | lbr
  | rbr
deriving DecidableEq, Repr

/-- Kind name of a token as interpolated into the `Expected ..., got ...`
error message of `eat` (parse.ts). -/
def kindName : Tok → String
  | .sym _ => "sym"
  | .lbr => "lbr"
  | .rbr => "rbr"

/-- Character class of the regular expression `/\s/` used by the
tokenizer; the common JavaScript whitespace characters. -/
def jsSpace (c : Char) : Bool :=
  c = ' ' ∨ c = '\t' ∨ c = '\n' ∨ c = '\r' ∨ c = '\x0b' ∨ c = '\x0c' ∨ c = ' '

/-- Characters that terminate a plain symbol run: the tokenizer loop
condition is `!/\s|\[|\]/.test(src[j])` (parse.ts, tokenize). -/
def symChar (c : Char) : Bool :=
  ¬ (jsSpace c ∨ c = '[' ∨ c = ']')

/-- Fueled tokenizer loop (parse.ts, function tokenize).  Every step
consumes at least one character, so `tokenize` below calls it with fuel
`length + 1`, which can never be exhausted; the fuel error string is
therefore unreachable.  Branches, in source order: whitespace skipped,
single-character bracket tokens, a quoted span pushed as a `sym` token
with the quotes stripped (error `Unclosed quote` when the closing quote
is missing), and a maximal run of non-space non-bracket characters pushed
as a `sym` token. -/
def tokenizeF : Nat → List Char → Except String (List Tok)
  | 0, _ => .error "fuel exhausted"
  | _ + 1, [] => .ok []
  | f + 1, c :: rest =>
    if jsSpace c then tokenizeF f rest
    else if c = '[' then (tokenizeF f rest).map (Tok.lbr :: ·)
    else if c = ']' then (tokenizeF f rest).map (Tok.rbr :: ·)
    else if c = '"' then
      match rest.dropWhile (· ≠ '"') with
      | '"' :: rest3 => (tokenizeF f rest3).map (Tok.sym ⟨rest.takeWhile (· ≠ '"')⟩ :: ·)
      | _ => .error "Unclosed quote"
    else
      (tokenizeF f ((c :: rest).dropWhile symChar)).map
        (Tok.sym ⟨(c :: rest).takeWhile symChar⟩ :: ·)

/-- Tokenizer entry point: `tokenize(src)` of parse.ts over the character
list of the source string. -/
def tokenize (cs : List Char) : Except String (List Tok) :=
  tokenizeF (cs.length + 1) cs

/-- Split of a label symbol at its first `#` (parse.ts,
parseFeaturesPart): `hash = base.indexOf("#")`; when a hash is present
the part before it becomes the label and the part after it the movement
identifier, possibly empty.  The `features` component of the source
return value is always the empty list and is dropped here. -/
def parseFeaturesPart (s : String) : String × Option String :=
  let pre := s.data.takeWhile (· ≠ '#')
  if pre.length = s.data.length then (s, none)
  else (⟨pre⟩, some ⟨s.data.drop (pre.length + 1)⟩)

/-- Test `/^[+-]/.test(value)` of the feature lookahead (parse.ts,
parseNode). -/
def startsWithSign (s : String) : Bool :=
  match s.data with
  | [] => false
  | c :: _ => c = '+' ∨ c = '-'

/-- Sign selection of a committed feature group,
`featTok.value.startsWith("+") ? "+" : "-"` (parse.ts, parseNode),
expressed on the character list: the string starts with `+` exactly when
its first character is `+`. -/
def signOf (s : String) : Sign :=
  if s.data.head? = some '+' then Sign.plus else Sign.minus

/-- Strip of one leading sign character, `value.replace(/^[+-]/, "")`
(parse.ts, parseNode). -/
def featName (s : String) : String :=
  if startsWithSign s then ⟨s.data.tail⟩ else s

/-- Strip of surrounding double quotes from a bare leaf symbol,
`leaf.value.replace(/^"|"$/g, "")` (parse.ts, parseNode): one leading and
one trailing quote character are removed when present.  The tokenizer
already strips the quotes of a quoted span, so on its output this is the
identity unless the symbol itself contains quote characters at its
edges. -/
def stripQuotes (s : String) : String :=
  let cs1 := match s.data with
    | '"' :: r => r
    | cs => cs
  match cs1.getLast? with
  | some '"' => ⟨cs1.dropLast⟩
  | _ => ⟨cs1⟩

mutual
/-- Fueled recursive-descent parser for one Node (parse.ts, parseNode),
over the token list with an explicit cursor `p` as in the source.  The
source recursion has no fuel; `parseTree` below supplies fuel
`2 * toks.length + 2`, which cannot be exhausted because along every
chain of nested calls at least every second call advances the cursor by
at least one token.  Branches in source order: cursor past the end throws
`Unexpected end`; an open bracket starts a bracketed node whose label
symbol is required next (`eat("sym")`, with the eat error messages), its
body is read by `parseBodyF` and the label token is split by
`parseFeaturesPart`; a bare symbol is a childless node with the split
applied; a close bracket throws `Bad token`. -/
def parseNodeF : Nat → List Tok → Nat → Except String (Node × Nat)
  | 0, _, _ => .error "fuel exhausted"
  | f + 1, toks, p =>
    match toks[p]? with
    | none => .error "Unexpected end"
    | some Tok.lbr =>
      match toks[p + 1]? with
      | none => .error "Unexpected end of input"
      | some (Tok.sym s) =>
        (parseBodyF f toks (p + 2) [] []).map fun r =>
          (Node.mk (parseFeaturesPart s).1 r.1 (parseFeaturesPart s).2 r.2.1, r.2.2)
      | some t => .error ("Expected sym, got " ++ kindName t)
    | some (Tok.sym s) =>
      .ok (Node.mk (parseFeaturesPart s).1 [] (parseFeaturesPart s).2 [], p + 1)
    | some Tok.rbr => .error "Bad token"

/-- Fueled body loop of a bracketed node (parse.ts, parseNode, the
`while (true)` look-ahead loop), accumulating the feature list `fs` and
child list `cs`; it also consumes the closing bracket (`eat("rbr")` after
the loop) and returns the cursor position after it.  Branches in source
order: end of tokens throws the unclosed-bracket error; on an open
bracket the cursor is tentatively advanced and, when the next token is a
symbol whose first character is a sign, a feature group is committed
(sign read by `startsWith("+")`, name stripped of the sign, closing
bracket required); otherwise the cursor is restored to the saved
position `p` and a full child node is parsed there; a bare symbol becomes
a childless leaf node with quotes stripped and no identifier split; a
close bracket ends the loop. -/
def parseBodyF : Nat → List Tok → Nat → List Feature → List Node →
    Except String (List Feature × List Node × Nat)
  | 0, _, _, _, _ => .error "fuel exhausted"
  | f + 1, toks, p, fs, cs =>
    match toks[p]? with
    | none => .error "Unclosed \x27[\x27"
    | some Tok.lbr =>
      match toks[p + 1]? with
      | some (Tok.sym s) =>
        if startsWithSign s then
          match toks[p + 2]? with
          | some Tok.rbr =>
            parseBodyF f toks (p + 3) (fs ++ [⟨signOf s, featName s⟩]) cs
          | some t => .error ("Expected rbr, got " ++ kindName t)
          | none => .error "Unexpected end of input"
        else
          (parseNodeF f toks p).bind fun r => parseBodyF f toks r.2 fs (cs ++ [r.1])
      | _ =>
        (parseNodeF f toks p).bind fun r => parseBodyF f toks r.2 fs (cs ++ [r.1])
    | some (Tok.sym s) =>
      parseBodyF f toks (p + 1) fs (cs ++ [Node.mk (stripQuotes s) [] none []])
    | some Tok.rbr => .ok (fs, cs, p + 1)
end

/-- Parser entry point (parse.ts, parseTree): tokenize, parse one node
from position 0, and reject any unconsumed trailing tokens with the
`Extra input after tree` error. -/
def parseTree (src : String) : Except String Node :=
  (tokenize src.data).bind fun toks =>
    (parseNodeF (2 * toks.length + 2) toks 0).bind fun r =>
      if r.2 = toks.length then .ok r.1 else .error "Extra input after tree"

/-- Positioned node (layout.ts, interface Positioned): a structural clone
of a Node extended with box geometry.  Coordinates and sizes are
rationals (JavaScript numbers; the layout divides by 2).  The source
also stores a non-owning `parent` back reference that no code of the
repository ever reads after construction; a back pointer cannot be
represented in a purely functional tree and is omitted. -/
inductive PNode where
  | mk (label : String) (features : List Feature) (id : Option String)
       (x y width height : ℚ) (children : List PNode)

def PNode.label : PNode → String
  | .mk l _ _ _ _ _ _ _ => l

def PNode.features : PNode → List Feature
  | .mk _ fs _ _ _ _ _ _ => fs

def PNode.id : PNode → Option String
  | .mk _ _ i _ _ _ _ _ => i

def PNode.x : PNode → ℚ
  | .mk _ _ _ x _ _ _ _ => x

def PNode.y : PNode → ℚ
  | .mk _ _ _ _ y _ _ _ => y

def PNode.width : PNode → ℚ
  | .mk _ _ _ _ _ w _ _ => w

def PNode.height : PNode → ℚ
  | .mk _ _ _ _ _ _ h _ => h

def PNode.children : PNode → List PNode
  | .mk _ _ _ _ _ _ _ cs => cs

/-- Label text measured by layout (layout.ts, measureLabel): the label
followed, when features are present, by a space and the bracketed
comma-joined feature badges. -/
def labelText (label : String) (features : List Feature) : String :=
  label ++ (if features = [] then ""
            else " [" ++ String.intercalate "," (features.map fun f => f.sign.str ++ f.name) ++ "]")

/-- Box width heuristic (layout.ts, measureLabel):
`Math.max(NODE_W, 8 * label.length + 12)` with `NODE_W = 36`.  String
length counts characters, as the source counts UTF-16 units; the two
agree on all basic-plane text. -/
def boxWidth (label : String) (features : List Feature) : ℚ :=
  max 36 (8 * (labelText label features).length + 12)

/-- Source measureLabel on a parsed node. -/
def measureLabel (n : Node) : ℚ :=
  boxWidth n.label n.features

mutual
/-- Geometry clone (layout.ts, clone inside layoutTree): a fresh
Positioned tree with `x = y = 0`, `width = measureLabel`, `height`
the constant `NODE_H = 22`, and recursively cloned children. -/
def clone : Node → PNode
  | .mk l fs i cs => .mk l fs i 0 0 (measureLabel (.mk l fs i cs)) 22 (cloneList cs)

def cloneList : List Node → List PNode
  | [] => []
  | c :: cs => clone c :: cloneList cs
end

mutual
/-- Sizing pass (layout.ts, firstWalk), returning the updated node
together with the returned subtree span.  A leaf has its `x` set to 0
and returns its own width.  An internal node first walks its children,
summing the returned spans with `H_GAP = 14` added between each adjacent
pair, then centers itself (`x = widthSum / 2 - width / 2`) and returns
`max(width, widthSum)`.  The stored `width` field of the node itself is
not modified by this pass. -/
def firstWalk : PNode → PNode × ℚ
  | .mk l fs i _ y w h cs =>
    match cs with
    | [] => (.mk l fs i 0 y w h [], w)
    | c :: cs0 =>
      let r := firstWalkList (c :: cs0)
      (.mk l fs i (r.2 / 2 - w / 2) y w h r.1, max w r.2)

/-- Child loop of the sizing pass: `widthSum` accumulates each returned
span and adds `H_GAP` after every child except the last. -/
def firstWalkList : List PNode → List PNode × ℚ
  | [] => ([], 0)
  | [c] =>
    let r := firstWalk c
    ([r.1], r.2)
  | c :: c2 :: cs =>
    let r := firstWalk c
    let rs := firstWalkList (c2 :: cs)
    (r.1 :: rs.1, r.2 + 14 + rs.2)
end

mutual
/-- Placement pass (layout.ts, secondWalk): adds the accumulated offset
`ox` to the x of the node, sets its `y` to `oy`, and recurses into the
children with vertical offset `oy + height + V_GAP` (`V_GAP = 28`).  The
source also computes a local `shift` (previous sibling right edge plus
gap minus current child x) and a cursor `cx`, but never uses either
value; the horizontal offset actually passed to child number `idx` is
the source expression `ox + c.x - c.x + (idx === 0 ? 0 : 0)`, reproduced
literally below, which equals `ox` for every child. -/
def secondWalk : PNode → ℚ → ℚ → PNode
  | .mk l fs i x _ w h cs, ox, oy =>
    .mk l fs i (x + ox) oy w h (secondWalkList cs 0 ox (oy + h + 28))

def secondWalkList : List PNode → Nat → ℚ → ℚ → List PNode
  | [], _, _, _ => []
  | c :: cs, idx, ox, oy =>
    secondWalk c (ox + c.x - c.x + (if idx = 0 then 0 else 0)) oy ::
      secondWalkList cs (idx + 1) ox oy
end

mutual
/-- Minimum `x` over all nodes of the tree (layout.ts, the `visit`
normalization scan).  The source folds `minX = Math.min(minX, n.x)` in
preorder starting from `Infinity`; since the tree is nonempty this
equals a fold started from the x of the root, threaded here as an
accumulator.  The `maxX` / `maxY` values of the same scan are never used
by layoutTree and are omitted. -/
def treeMinX : PNode → ℚ
  | .mk _ _ _ x _ _ _ cs => treeMinXList x cs

def treeMinXList : ℚ → List PNode → ℚ
  | acc, [] => acc
  | acc, c :: cs => treeMinXList (min acc (treeMinX c)) cs
end

mutual
/-- Normalization shift (layout.ts, the `shift` closure): subtracts `dx`
from the x of every node. -/
def shiftX : PNode → ℚ → PNode
  | .mk l fs i x y w h cs, dx => .mk l fs i (x - dx) y w h (shiftXList cs dx)

def shiftXList : List PNode → ℚ → List PNode
  | [], _ => []
  | c :: cs, dx => shiftX c dx :: shiftXList cs dx
end

/-- Layout entry point (layout.ts, layoutTree): clone, sizing pass (the
returned total span `totalW` is bound but unused in the source), the
placement pass from offset (0, 0), and the normalization shift by the
minimum x. -/
def layoutTree (root : Node) : PNode :=
  let r := clone root
  let fw := firstWalk r
  let r2 := secondWalk fw.1 0 0
  shiftX r2 (treeMinX r2)

mutual
/-- Document-order (preorder) listing of the nodes of a positioned tree:
the node itself, then the listings of its children left to right.  All
tree walks of the source (normalization, collectPositions, the movement
map construction) visit nodes in exactly this order. -/
def preorder : PNode → List PNode
  | .mk l fs i x y w h cs => .mk l fs i x y w h cs :: preorderList cs

def preorderList : List PNode → List PNode
  | [] => []
  | c :: cs => preorder c ++ preorderList cs
end

mutual
/-- Structural projection of a positioned tree back to a parsed Node,
forgetting the geometry fields. -/
def strip : PNode → Node
  | .mk l fs i _ _ _ _ cs => .mk l fs i (stripList cs)

def stripList : List PNode → List Node
  | [] => []
  | c :: cs => strip c :: stripList cs
end

/-- Movement group record of drawMovement (render.ts):
`{ origin?: Positioned; traces: Positioned[] }`. -/
structure MGroup where
  origin : Option PNode
  traces : List PNode

/-- The movement map, modelling the JavaScript `Map<string, ...>` of
drawMovement as an association list in key insertion order: `set` on an
existing key replaces its value in place, `set` on a new key appends. -/
def mget (m : List (String × MGroup)) (s : String) : Option MGroup :=
  (m.find? fun kv => kv.1 = s).map (·.2)

def mset (m : List (String × MGroup)) (s : String) (g : MGroup) :
    List (String × MGroup) :=
  match m with
  | [] => [(s, g)]
  | (k, v) :: r => if k = s then (s, g) :: r else (k, v) :: mset r s g

/-- One visit of the movement walk (render.ts, drawMovement, the `walk`
closure body): a node is processed only when `n.id` is truthy, which in
JavaScript excludes both an absent identifier and the empty string.  The
node is a trace when its label is exactly `"t"`; a trace is appended to
the traces of the group of its identifier, any other node overwrites the
origin of that group, the group being created on first sight. -/
def mstep (m : List (String × MGroup)) (n : PNode) : List (String × MGroup) :=
  match n.id with
  | none => m
  | some s =>
    if s = "" then m
    else
      let rec0 := (mget m s).getD ⟨none, []⟩
      mset m s (if n.label = "t"
                then ⟨rec0.origin, rec0.traces ++ [n]⟩
                else ⟨some n, rec0.traces⟩)

mutual
/-- The movement walk of drawMovement (render.ts): preorder traversal
threading the map. -/
def walkMov : List (String × MGroup) → PNode → List (String × MGroup)
  | m, .mk l fs i x y w h cs => walkMovList (mstep m (.mk l fs i x y w h cs)) cs

def walkMovList : List (String × MGroup) → List PNode → List (String × MGroup)
  | m, [] => m
  | m, c :: cs => walkMovList (walkMov m c) cs
end

/-- Movement resolution: the map built by drawMovement (render.ts) from
the positioned tree, starting from an empty map. -/
def resolveMovement (root : PNode) : List (String × MGroup) :=
  walkMov [] root

/-- collectPositions (layout.ts): groups all nodes carrying a truthy
identifier by that identifier, in preorder.  Exported by the source but
never called by renderTree, which builds its own map in drawMovement;
included for completeness. -/
def cstep (m : List (String × List PNode)) (n : PNode) :
    List (String × List PNode) :=
  match n.id with
  | none => m
  | some s =>
    if s = "" then m
    else
      let arr := ((m.find? fun kv => kv.1 = s).map (·.2)).getD []
      match m.findIdx? (fun kv => kv.1 = s) with
      | some _ =>
        m.map fun kv => if kv.1 = s then (s, arr ++ [n]) else kv
      | none => m ++ [(s, arr ++ [n])]

mutual
def collectPos : List (String × List PNode) → PNode → List (String × List PNode)
  | m, .mk l fs i x y w h cs => collectPosList (cstep m (.mk l fs i x y w h cs)) cs

def collectPosList : List (String × List PNode) → List PNode →
    List (String × List PNode)
  | m, [] => m
  | m, c :: cs => collectPosList (collectPos m c) cs
end

def collectPositions (root : PNode) : List (String × List PNode) :=
  collectPos [] root

/-- Movement arc as emitted by drawMovement (render.ts): the cubic path
`M x1 y1 C c1x c1y, c2x c2y, x2 y2` with its css class and arrowhead
marker reference. -/
structure Arc where
  x1 : ℚ
  y1 : ℚ
  c1x : ℚ
  c1y : ℚ
  c2x : ℚ
  c2y : ℚ
  x2 : ℚ
  y2 : ℚ
  cssClass : String
  markerEnd : String

/-- Arc geometry for one origin/trace pair (render.ts, drawMovement, the
inner `traces.forEach` body): start at the origin top center, end at the
trace bottom center, first control point 40 above the start, second
control point 40 below the end, arrowhead marker at the trace end. -/
def arcFor (origin t : PNode) : Arc :=
  let x1 := origin.x + origin.width / 2
  let y1 := origin.y
  let x2 := t.x + t.width / 2
  let y2 := t.y + t.height
  ⟨x1, y1, x1, y1 - 40, x2, y2 + 40, x2, y2, "ling-tree-move", "url(#ling-tree-arrow)"⟩

/-- Origin/trace pairs for which drawMovement emits an arc: for every
group of the movement map, in map iteration order, nothing when the
group has no origin (`if (!origin) return`), otherwise one pair per
trace in trace order. -/
def movementPairs (root : PNode) : List (PNode × PNode) :=
  (resolveMovement root).flatMap fun kg =>
    match kg.2.origin with
    | none => []
    | some o => kg.2.traces.map fun t => (o, t)

/-- The arcs emitted by drawMovement (render.ts). -/
def drawMovementArcs (root : PNode) : List Arc :=
  (movementPairs root).map fun p => arcFor p.1 p.2

/-- Effect of one visited node on the group stored under one fixed key
`s`: the abstract per-key step used to characterize the movement map
fold. -/
def stepK (s : String) (g : Option MGroup) (n : PNode) : Option MGroup :=
  if n.id = some s then
    some (if n.label = "t"
          then ⟨(g.getD ⟨none, []⟩).origin, (g.getD ⟨none, []⟩).traces ++ [n]⟩
          else ⟨some n, (g.getD ⟨none, []⟩).traces⟩)
  else g

/-- Test whether a node carries identifier `s`. -/
def hasId (s : String) (n : PNode) : Bool :=
  n.id == some s

/-- Test whether a node is a trace of identifier `s`: it carries `s` and
its label is exactly the trace marker. -/
def isTraceOf (s : String) (n : PNode) : Bool :=
  n.id == some s && n.label == "t"

/-- Test whether a node claims the origin role for identifier `s`: it
carries `s` and its label is not the trace marker. -/
def isOriginOf (s : String) (n : PNode) : Bool :=
  n.id == some s && !(n.label == "t")

/-- Specification-side description of the movement group of identifier
`s` over a node listing `l`, following the words of the spec: the traces
are all nodes of `l` (in order) whose identifier is `s` and whose label
is exactly the trace marker `t`; the origin is the last node of `l`
whose identifier is `s` and whose label is not the trace marker; the
group exists exactly when some node of `l` carries identifier `s`. -/
def groupSpecOf (s : String) (l : List PNode) : Option MGroup :=
  if l.any (hasId s) then
    some ⟨(l.filter (isOriginOf s)).getLast?, l.filter (isTraceOf s)⟩
  else none

/-- Specification-side description of the emitted movement arcs,
following the words of the spec: for each movement group, in map order,
no arcs when the group has no resolved origin, otherwise one cubic per
trace running from the origin top center to the trace bottom center with
control points vertically offset by the fixed distance 40, carrying the
arrowhead marker reference. -/
def arcsSpec (root : PNode) : List Arc :=
  (resolveMovement root).flatMap fun kg =>
    match kg.2.origin with
    | none => []
    | some o => kg.2.traces.map fun t =>
        ⟨o.x + o.width / 2, o.y,
         o.x + o.width / 2, o.y - 40,
         t.x + t.width / 2, t.y + t.height + 40,
         t.x + t.width / 2, t.y + t.height,
         "ling-tree-move", "url(#ling-tree-arrow)"⟩

/-- Well-formedness of a movement map: every key is a nonempty
identifier, every stored trace carries that key as its identifier, and
so does the stored origin. -/
def GoodMap (m : List (String × MGroup)) : Prop :=
  ∀ kv ∈ m, ¬ kv.1 = "" ∧ (∀ v ∈ kv.2.traces, v.id = some kv.1) ∧
    ∀ v, kv.2.origin = some v → v.id = some kv.1

/-- Non-geometric data of a positioned node together with its box size:
everything except `x`, `y` and the children. -/
def stat (v : PNode) : String × List Feature × Option String × ℚ × ℚ :=
  (v.label, v.features, v.id, v.width, v.height)

/-- The parse of `[A b c]`: a root with two bare leaf children, the
smallest tree on which sibling placement is observable. -/
def exTreeABC : Node :=
  .mk "A" [] none [.mk "b" [] none [], .mk "c" [] none []]

/-- Concrete positioned nodes for movement examples (geometry values are
arbitrary). -/
def dpWh : PNode := .mk "DP" [] (some "wh") 1 2 36 22 []

def dpWh2 : PNode := .mk "DP2" [] (some "wh") 3 4 36 22 []

def tWh : PNode := .mk "t" [] (some "wh") 5 6 36 22 []

def zEmpty : PNode := .mk "Z" [] (some "") 7 8 36 22 []

/-- Concrete positioned tree with two competing origins for identifier
`wh`, one trace, and one node with an empty identifier. -/
def exMoveTree : PNode := .mk "S" [] none 0 0 36 22 [dpWh, dpWh2, tWh, zEmpty]

/-- C2 counterexample: the leaf child `t#wh` of `[X t#wh]` is parsed
with its whole token as label and no identifier, so the claimed split of
leaf children at `#` fails on this input: the result is not a root with
a childless node labelled `t` and identifier `wh`. -/
theorem c2_leaf_hash_counterexample :
    parseTree "[X t#wh]" = .ok (.mk "X" [] none [.mk "t#wh" [] none []]) ∧
    ¬ parseTree "[X t#wh]" = .ok (.mk "X" [] none [.mk "t" [] (some "wh") []]) := by
  refine ⟨rfl, ?_⟩
  rw [show parseTree "[X t#wh]" = .ok (.mk "X" [] none [.mk "t#wh" [] none []]) from rfl]
  simp

/-- Helper: a run of non-hash characters is untouched by the split
scan. -/
theorem takeWhile_ne_hash_eq_self (l : List Char) (h : ∀ c ∈ l, ¬ c = '#') :
    l.takeWhile (· ≠ '#') = l :=
  List.takeWhile_eq_self_iff.mpr fun x hx => by simpa using h x hx

/-- Helper: the split scan of a hash-free prefix followed by a hash
keeps exactly the prefix. -/
theorem takeWhile_hash_split (l r : List Char) (h : ∀ c ∈ l, ¬ c = '#') :
    (l ++ '#' :: r).takeWhile (· ≠ '#') = l := by
  rw [List.takeWhile_append, takeWhile_ne_hash_eq_self l h, if_pos rfl,
      List.takeWhile_cons, if_neg (by simp), List.append_nil]

/-- C2 amended, in its general form.  The split at the first `#` applies
exactly to the two label positions: for every hash-free prefix `a` and
arbitrary suffix `b`, `parseFeaturesPart` maps `a#b` to label `a` with
identifier `b`, and leaves a hash-free token whole with no identifier;
for every token stream, a bracketed node builds its label and identifier
from `parseFeaturesPart` of its label symbol, and so does a bare
root-form symbol.  For every token stream, a bare leaf child inside a
bracketed body is never split: its entire token text, with one leading
and one trailing quote character stripped when present, becomes the
label of a childless node with no identifier; stripping removes
surrounding quotes for every quoted character run.  Concrete instances:
`[t#wh]` and root-form `t#wh` yield label `t` with identifier `wh`; the
leaf `t#wh` inside `[CP ...]` keeps label `t#wh` with no identifier even
next to a bracketed child whose label is split; a quoted leaf `"t#wh"`
also keeps its whole text with no identifier; and a bare leaf `ab"` has
its trailing quote stripped. -/
theorem c2_hash_split_amended :
    (∀ (a b : String), ¬ '#' ∈ a.data →
      parseFeaturesPart (a ++ "#" ++ b) = (a, some b)) ∧
    (∀ s : String, ¬ '#' ∈ s.data → parseFeaturesPart s = (s, none)) ∧
    (∀ (f : Nat) (toks : List Tok) (p : Nat) (s : String),
      toks[p]? = some Tok.lbr → toks[p + 1]? = some (Tok.sym s) →
      parseNodeF (f + 1) toks p =
        (parseBodyF f toks (p + 2) [] []).map fun r =>
          (Node.mk (parseFeaturesPart s).1 r.1 (parseFeaturesPart s).2 r.2.1, r.2.2)) ∧
    (∀ (f : Nat) (toks : List Tok) (p : Nat) (s : String),
      toks[p]? = some (Tok.sym s) →
      parseNodeF (f + 1) toks p =
        .ok (Node.mk (parseFeaturesPart s).1 [] (parseFeaturesPart s).2 [], p + 1)) ∧
    (∀ (f : Nat) (toks : List Tok) (p : Nat) (fs : List Feature) (cs : List Node)
       (s : String), toks[p]? = some (Tok.sym s) →
      parseBodyF (f + 1) toks p fs cs =
        parseBodyF f toks (p + 1) fs (cs ++ [Node.mk (stripQuotes s) [] none []])) ∧
    (∀ mid : List Char, stripQuotes ⟨'"' :: (mid ++ ['"'])⟩ = ⟨mid⟩) ∧
    parseTree "[t#wh]" = .ok (.mk "t" [] (some "wh") []) ∧
    parseTree "t#wh" = .ok (.mk "t" [] (some "wh") []) ∧
    parseTree "[CP [DP#wh foo] t#wh]" =
      .ok (.mk "CP" [] none
            [.mk "DP" [] (some "wh") [.mk "foo" [] none []],
             .mk "t#wh" [] none []]) ∧
    parseTree "[X \"t#wh\"]" = .ok (.mk "X" [] none [.mk "t#wh" [] none []]) ∧
    parseTree "[X ab\"]" = .ok (.mk "X" [] none [.mk "ab" [] none []]) := by
  refine ⟨?_, ?_, ?_, ?_, ?_, ?_, rfl, rfl, rfl, rfl, rfl⟩
  · intro a b h
    have hall : ∀ c ∈ a.data, ¬ c = '#' := fun c hc he => h (he ▸ hc)
    have hdata : (a ++ "#" ++ b).data = a.data ++ '#' :: b.data := by
      simp [String.data_append]
    simp only [parseFeaturesPart, hdata]
    rw [takeWhile_hash_split a.data b.data hall, if_neg (by simp), List.drop_append 1]
    rfl
  · intro s h
    simp only [parseFeaturesPart]
    rw [takeWhile_ne_hash_eq_self s.data (fun c hc he => h (he ▸ hc)), if_pos rfl]
  · intro f toks p s h1 h2
    rw [parseNodeF, h1, h2]
  · intro f toks p s h1
    rw [parseNodeF, h1]
  · intro f toks p fs cs s h1
    rw [parseBodyF, h1]
  · intro mid
    rw [show stripQuotes ⟨'"' :: (mid ++ ['"'])⟩ =
          (match (mid ++ ['"']).getLast? with
           | some '"' => (⟨(mid ++ ['"']).dropLast⟩ : String)
           | _ => ⟨mid ++ ['"']⟩) from rfl,
        List.getLast?_concat]
    show (⟨(mid ++ ['"']).dropLast⟩ : String) = ⟨mid⟩
    rw [List.dropLast_concat]

/-- Witness for c2_hash_split_amended: each universal part applied at a
concrete input with its hypotheses discharged. -/
theorem c2_hash_split_amended_witness :
    parseFeaturesPart ("t" ++ "#" ++ "wh") = ("t", some "wh") ∧
    parseFeaturesPart "did" = ("did", none) ∧
    parseNodeF 6 [Tok.lbr, Tok.sym "t#wh", Tok.rbr] 0 =
      (parseBodyF 5 [Tok.lbr, Tok.sym "t#wh", Tok.rbr] 2 [] []).map (fun r =>
        (Node.mk (parseFeaturesPart "t#wh").1 r.1 (parseFeaturesPart "t#wh").2 r.2.1,
         r.2.2)) ∧
    parseNodeF 6 [Tok.sym "t#wh"] 0 =
      .ok (Node.mk (parseFeaturesPart "t#wh").1 [] (parseFeaturesPart "t#wh").2 [], 1) ∧
    parseBodyF 6 [Tok.sym "t#wh", Tok.rbr] 0 [] [] =
      parseBodyF 5 [Tok.sym "t#wh", Tok.rbr] 1 []
        [Node.mk (stripQuotes "t#wh") [] none []] ∧
    stripQuotes ⟨'"' :: (['a', 'b'] ++ ['"'])⟩ = ⟨['a', 'b']⟩ :=
  ⟨c2_hash_split_amended.1 "t" "wh" (by decide),
   c2_hash_split_amended.2.1 "did" (by decide),
   c2_hash_split_amended.2.2.1 5 [Tok.lbr, Tok.sym "t#wh", Tok.rbr] 0 "t#wh" rfl rfl,
   c2_hash_split_amended.2.2.2.1 5 [Tok.sym "t#wh"] 0 "t#wh" rfl,
   c2_hash_split_amended.2.2.2.2.1 5 [Tok.sym "t#wh", Tok.rbr] 0 [] [] "t#wh" rfl,
   c2_hash_split_amended.2.2.2.2.2.1 ['a', 'b']⟩

/-- C4: inside a bracketed body, when the next token is an open bracket
the parser decides feature group versus child node by one-step
backtracking lookahead: after tentatively consuming the bracket, a
following symbol starting with `+` or `-` commits to a feature group
(sign recorded, stripped from the name, matching close bracket
required), and anything else restores the cursor to the saved position
`p` and parses a full child node there; consequently
`[CP[+WH][-Q] [C did]]` parses to a root `CP` with features `+WH`, `-Q`
and one child `C` with one leaf child `did`. -/
theorem c4_feature_vs_child (f : Nat) (toks : List Tok) (p : Nat)
    (fs : List Feature) (cs : List Node) (h : toks[p]? = some Tok.lbr) :
    (parseBodyF (f + 1) toks p fs cs =
      match toks[p + 1]? with
      | some (Tok.sym s) =>
        if startsWithSign s then
          match toks[p + 2]? with
          | some Tok.rbr => parseBodyF f toks (p + 3) (fs ++ [⟨signOf s, featName s⟩]) cs
          | some t => .error ("Expected rbr, got " ++ kindName t)
          | none => .error "Unexpected end of input"
        else
          (parseNodeF f toks p).bind fun r => parseBodyF f toks r.2 fs (cs ++ [r.1])
      | _ =>
        (parseNodeF f toks p).bind fun r => parseBodyF f toks r.2 fs (cs ++ [r.1])) ∧
    parseTree "[CP[+WH][-Q] [C did]]" =
      .ok (.mk "CP" [⟨.plus, "WH"⟩, ⟨.minus, "Q"⟩] none
            [.mk "C" [] none [.mk "did" [] none []]]) := by
  refine ⟨?_, rfl⟩
  rw [parseBodyF, h]

/-- Witness for c4_feature_vs_child at a concrete token list: the
feature branch fires on `[+F]` and the parse of the full example
evaluates as claimed. -/
theorem c4_feature_vs_child_witness :
    parseBodyF 6 [Tok.lbr, Tok.sym "+F", Tok.rbr, Tok.rbr] 0 [] [] =
      parseBodyF 5 [Tok.lbr, Tok.sym "+F", Tok.rbr, Tok.rbr] 3 [⟨.plus, "F"⟩] [] ∧
    parseTree "[CP[+WH][-Q] [C did]]" =
      .ok (.mk "CP" [⟨.plus, "WH"⟩, ⟨.minus, "Q"⟩] none
            [.mk "C" [] none [.mk "did" [] none []]]) := by
  refine ⟨?_, (c4_feature_vs_child 5 [Tok.lbr, Tok.sym "+F", Tok.rbr, Tok.rbr] 0 [] [] rfl).2⟩
  rw [(c4_feature_vs_child 5 [Tok.lbr, Tok.sym "+F", Tok.rbr, Tok.rbr] 0 [] [] rfl).1]
  rfl

/-- C7: when a complete top-level node has been parsed but the cursor is
not at the end of the token stream, parseTree fails with the trailing
input error rather than returning a tree. -/
theorem c7_extra_trailing_input (src : String) (toks : List Tok) (n : Node) (p : Nat)
    (htok : tokenize src.data = .ok toks)
    (hparse : parseNodeF (2 * toks.length + 2) toks 0 = .ok (n, p))
    (hp : ¬ p = toks.length) :
    parseTree src = .error "Extra input after tree" := by
  simp only [parseTree, htok, Except.bind, hparse, hp, if_false]

/-- Witness for c7_extra_trailing_input on `[A] [B]`: one node ends at
cursor 3 of 6 tokens, and parseTree fails with the trailing input
error. -/
theorem c7_extra_trailing_input_witness :
    tokenize "[A] [B]".data =
      .ok [Tok.lbr, Tok.sym "A", Tok.rbr, Tok.lbr, Tok.sym "B", Tok.rbr] ∧
    parseNodeF (2 * 6 + 2) [Tok.lbr, Tok.sym "A", Tok.rbr, Tok.lbr, Tok.sym "B", Tok.rbr] 0 =
      .ok (.mk "A" [] none [], 3) ∧
    parseTree "[A] [B]" = .error "Extra input after tree" :=
  ⟨rfl, rfl,
   c7_extra_trailing_input "[A] [B]"
     [Tok.lbr, Tok.sym "A", Tok.rbr, Tok.lbr, Tok.sym "B", Tok.rbr]
     (.mk "A" [] none []) 3 rfl rfl (by decide)⟩

/-- Lookup on a cons cell of the movement map. -/
theorem mget_cons (k : String) (v : MGroup) (r : List (String × MGroup)) (s : String) :
    mget ((k, v) :: r) s = if k = s then some v else mget r s := by
  by_cases h : k = s <;> simp [mget, List.find?, h]

/-- Lookup after an update: `mset` stores exactly under its key and
leaves every other key unchanged. -/
theorem mget_mset : ∀ (m : List (String × MGroup)) (s s' : String) (g : MGroup),
    mget (mset m s g) s' = if s = s' then some g else mget m s'
  | [], s, s', g => by
    by_cases h : s = s' <;> simp [mset, mget_cons, mget, List.find?, h]
  | (k, v) :: r, s, s', g => by
    by_cases hk : k = s
    · subst hk
      by_cases h : k = s' <;> simp [mset, mget_cons, h]
    · have ih := mget_mset r s s' g
      by_cases h : k = s'
      · subst h
        have hss : ¬ s = k := fun hh => hk hh.symm
        simp [mset, hk, mget_cons, hss]
      · simp [mset, hk, mget_cons, h, ih]

/-- Membership after an update: an entry of `mset m s g` is the new
entry or an entry of `m`. -/
theorem mem_mset : ∀ (m : List (String × MGroup)) (s : String) (g : MGroup) kv,
    kv ∈ mset m s g → kv = (s, g) ∨ kv ∈ m
  | [], s, g, kv, h => by
    simp [mset] at h
    exact Or.inl h
  | (k, v) :: r, s, g, kv, h => by
    by_cases hk : k = s
    · subst hk
      simp only [mset, if_pos rfl] at h
      rcases List.mem_cons.mp h with h | h
      · exact Or.inl h
      · exact Or.inr (List.mem_cons_of_mem _ h)
    · simp only [mset, if_neg hk] at h
      rcases List.mem_cons.mp h with h | h
      · exact Or.inr (by simp [h])
      · rcases mem_mset r s g kv h with h | h
        · exact Or.inl h
        · exact Or.inr (List.mem_cons_of_mem _ h)

/-- A successful lookup comes from an entry of the map. -/
theorem mget_eq_some_mem (m : List (String × MGroup)) (s : String) (g : MGroup)
    (h : mget m s = some g) : (s, g) ∈ m := by
  unfold mget at h
  cases hf : m.find? fun kv => kv.1 = s with
  | none => rw [hf] at h; simp at h
  | some kv =>
    rw [hf] at h
    have hmem := List.mem_of_find?_eq_some hf
    have hpred := List.find?_some hf
    simp at h hpred
    rcases kv with ⟨k, v⟩
    simp at hpred h
    subst hpred
    rw [← h]
    exact hmem

/-- Effect of one movement step on the lookup of a fixed nonempty key. -/
theorem mget_mstep (m : List (String × MGroup)) (n : PNode) (s : String)
    (hs : ¬ s = "") : mget (mstep m n) s = stepK s (mget m s) n := by
  unfold mstep stepK
  cases hid : n.id with
  | none => simp
  | some u =>
    by_cases hu : u = ""
    · subst hu
      have hne : ¬ (some "" : Option String) = some s := by
        simp
        exact fun h => hs h.symm
      simp [hne]
    · by_cases hus : u = s
      · subst hus
        simp [hu, mget_mset]
      · have hne : ¬ (some u : Option String) = some s := by simp [hus]
        simp [hu, hne, mget_mset, hus]

mutual
/-- The movement walk equals a preorder fold of the step function. -/
theorem walkMov_eq : ∀ (n : PNode) (m : List (String × MGroup)),
    walkMov m n = (preorder n).foldl mstep m
  | .mk l fs i x y w h cs, m => by
    rw [walkMov, preorder, List.foldl_cons, walkMovList_eq cs]

theorem walkMovList_eq : ∀ (cs : List PNode) (m : List (String × MGroup)),
    walkMovList m cs = (preorderList cs).foldl mstep m
  | [], m => rfl
  | c :: cs, m => by
    rw [walkMovList, preorderList, List.foldl_append, walkMov_eq c, walkMovList_eq cs]
end

/-- Lookup of a fixed nonempty key through the whole fold is the fold of
the per-key step over the same node list. -/
theorem mget_foldl (s : String) (hs : ¬ s = "") :
    ∀ (l : List PNode) (m : List (String × MGroup)),
    mget (l.foldl mstep m) s = l.foldl (stepK s) (mget m s)
  | [], m => rfl
  | n :: l, m => by
    rw [List.foldl_cons, List.foldl_cons, mget_foldl s hs l, mget_mstep m n s hs]


/-- The per-key fold started from no group computes exactly the
specification-side group description. -/
theorem stepK_foldl_spec (s : String) (l : List PNode) :
    l.foldl (stepK s) none = groupSpecOf s l := by
  induction l using List.reverseRecOn with
  | nil => simp [groupSpecOf]
  | append_singleton l n ih =>
    rw [List.foldl_append, List.foldl_cons, List.foldl_nil, ih]
    unfold stepK groupSpecOf
    by_cases hid : n.id = some s
    · have hHasN : hasId s n = true := by simp [hasId, hid]
      have hany : (l ++ [n]).any (hasId s) = true := by
        simp [List.any_append, hHasN]
      rw [if_pos hid, if_pos hany, List.filter_append, List.filter_append]
      by_cases ht : n.label = "t"
      · have hfT : [n].filter (isTraceOf s) = [n] := by simp [isTraceOf, hid, ht]
        have hfO : [n].filter (isOriginOf s) = [] := by simp [isOriginOf, hid, ht]
        rw [if_pos ht, hfT, hfO, List.append_nil]
        by_cases hany0 : l.any (hasId s) = true
        · rw [if_pos hany0]
          rfl
        · have hall : ∀ x ∈ l, hasId s x = false := by
            intro x hx
            rcases Bool.eq_false_or_eq_true (hasId s x) with h | h
            · exact absurd (List.any_eq_true.mpr ⟨x, hx, h⟩) hany0
            · exact h
          have hT0 : l.filter (isTraceOf s) = [] := by
            rw [List.filter_eq_nil_iff]
            intro a ha
            have h := hall a ha
            simp [hasId] at h
            simp [isTraceOf, h]
          have hO0 : l.filter (isOriginOf s) = [] := by
            rw [List.filter_eq_nil_iff]
            intro a ha
            have h := hall a ha
            simp [hasId] at h
            simp [isOriginOf, h]
          rw [if_neg hany0, hT0, hO0]
          rfl
      · have hfT : [n].filter (isTraceOf s) = [] := by simp [isTraceOf, hid, ht]
        have hfO : [n].filter (isOriginOf s) = [n] := by simp [isOriginOf, hid, ht]
        rw [if_neg ht, hfT, hfO, List.append_nil, List.getLast?_concat]
        by_cases hany0 : l.any (hasId s) = true
        · rw [if_pos hany0]
          rfl
        · have hall : ∀ x ∈ l, hasId s x = false := by
            intro x hx
            rcases Bool.eq_false_or_eq_true (hasId s x) with h | h
            · exact absurd (List.any_eq_true.mpr ⟨x, hx, h⟩) hany0
            · exact h
          have hT0 : l.filter (isTraceOf s) = [] := by
            rw [List.filter_eq_nil_iff]
            intro a ha
            have h := hall a ha
            simp [hasId] at h
            simp [isTraceOf, h]
          rw [if_neg hany0, hT0]
          rfl
    · have hHasN : hasId s n = false := by simp [hasId, hid]
      have hanyEq : (l ++ [n]).any (hasId s) = l.any (hasId s) := by
        simp [List.any_append, hHasN]
      have hfT : [n].filter (isTraceOf s) = [] := by simp [isTraceOf, hid]
      have hfO : [n].filter (isOriginOf s) = [] := by simp [isOriginOf, hid]
      rw [if_neg hid, hanyEq, List.filter_append, List.filter_append, hfT, hfO,
          List.append_nil, List.append_nil]

/-- C5: movement resolution is a single preorder walk: for every
nonempty identifier, the resolved group (when it exists) holds as traces
exactly the preorder-ordered nodes carrying that identifier with label
exactly `t`, and as origin the last preorder node carrying that
identifier with a different label, later origins overwriting earlier
ones; the group exists exactly when some node carries the
identifier. -/
theorem c5_movement_resolution (root : PNode) (s : String) (hs : ¬ s = "") :
    mget (resolveMovement root) s = groupSpecOf s (preorder root) := by
  rw [resolveMovement, walkMov_eq, mget_foldl s hs,
      show mget [] s = none from rfl, stepK_foldl_spec]

/-- Witness for c5_movement_resolution on a concrete tree with two
competing origins and one trace for identifier `wh`: the resolved group
matches the specification description, and concretely the second origin
has overwritten the first while the single trace was collected. -/
theorem c5_movement_resolution_witness :
    (¬ ("wh" : String) = "") ∧
    mget (resolveMovement exMoveTree) "wh" = groupSpecOf "wh" (preorder exMoveTree) ∧
    mget (resolveMovement exMoveTree) "wh" = some ⟨some dpWh2, [tWh]⟩ :=
  ⟨by decide, c5_movement_resolution exMoveTree "wh" (by decide), rfl⟩

/-- C6: the arcs emitted by drawMovement are exactly the
specification-side arcs: for each movement group in map order, one cubic
per trace when the group has a resolved origin, running from the origin
top center to the trace bottom center with control points vertically
offset by 40 and the arrowhead marker at the trace end, and no arcs at
all for a group with no resolved origin. -/
theorem c6_movement_arcs (root : PNode) : drawMovementArcs root = arcsSpec root := by
  unfold drawMovementArcs movementPairs arcsSpec
  rw [List.map_flatMap]
  generalize resolveMovement root = m
  induction m with
  | nil => rfl
  | cons kg m ih =>
    rw [List.flatMap_cons, List.flatMap_cons, ih]
    congr 1
    cases kg.2.origin with
    | none => rfl
    | some o =>
      rw [List.map_map]
      rfl

/-- One movement step preserves map well-formedness. -/
theorem goodMap_mstep (m : List (String × MGroup)) (n : PNode) (h : GoodMap m) :
    GoodMap (mstep m n) := by
  cases hid : n.id with
  | none => simpa only [mstep, hid] using h
  | some u =>
    by_cases hu : u = ""
    · simp only [mstep, hid, if_pos hu]
      exact h
    · simp only [mstep, hid, if_neg hu]
      intro kv hkv
      rcases mem_mset _ _ _ _ hkv with rfl | hmem
      · refine ⟨hu, ?_, ?_⟩
        · intro v hvt
          cases ht : n.label == "t" with
          | true =>
            rw [if_pos (by simpa using ht)] at hvt
            simp only at hvt
            rcases List.mem_append.mp hvt with hvt | hvt
            · cases hg : mget m u with
              | none => rw [hg] at hvt; simp at hvt
              | some g0 =>
                rw [hg] at hvt
                exact ((h (u, g0) (mget_eq_some_mem m u g0 hg)).2.1) v hvt
            · rw [List.mem_singleton.mp hvt]
              exact hid
          | false =>
            rw [if_neg (by simpa using ht)] at hvt
            simp only at hvt
            cases hg : mget m u with
            | none => rw [hg] at hvt; simp at hvt
            | some g0 =>
              rw [hg] at hvt
              exact ((h (u, g0) (mget_eq_some_mem m u g0 hg)).2.1) v hvt
        · intro v hvo
          cases ht : n.label == "t" with
          | true =>
            rw [if_pos (by simpa using ht)] at hvo
            simp only at hvo
            cases hg : mget m u with
            | none => rw [hg] at hvo; simp at hvo
            | some g0 =>
              rw [hg] at hvo
              exact ((h (u, g0) (mget_eq_some_mem m u g0 hg)).2.2) v hvo
          | false =>
            rw [if_neg (by simpa using ht)] at hvo
            have hnv : n = v := Option.some.inj hvo
            rw [← hnv]
            exact hid
      · exact h kv hmem

/-- The resolved movement map of any tree is well formed. -/
theorem goodMap_resolve (root : PNode) : GoodMap (resolveMovement root) := by
  rw [resolveMovement, walkMov_eq]
  have hfold : ∀ (l : List PNode) (m), GoodMap m → GoodMap (l.foldl mstep m) := by
    intro l
    induction l with
    | nil => exact fun m h => h
    | cons n l ih => exact fun m h => ih _ (goodMap_mstep m n h)
  apply hfold
  intro kv hkv
  exact absurd hkv (List.not_mem_nil kv)

/-- C10: a label token ending in `#` parses to a node whose identifier
is the empty string (shown for the root form `DP#`), and a node whose
identifier is the empty string is excluded from movement processing
entirely: it never appears in the traces or as the origin of any
resolved group, and no emitted origin/trace arc pair involves it. -/
theorem c10_empty_id_excluded :
    parseTree "DP#" = .ok (.mk "DP" [] (some "") []) ∧
    (∀ (root : PNode) (s : String) (g : MGroup),
      mget (resolveMovement root) s = some g →
      (¬ s = "") ∧ ∀ v : PNode, v.id = some "" →
        ¬ v ∈ g.traces ∧ ¬ g.origin = some v) ∧
    (∀ (root v : PNode), v.id = some "" →
      ∀ p ∈ movementPairs root, ¬ p.1 = v ∧ ¬ p.2 = v) := by
  refine ⟨rfl, ?_, ?_⟩
  · intro root s g hg
    have hgood := goodMap_resolve root (s, g) (mget_eq_some_mem _ _ _ hg)
    refine ⟨hgood.1, ?_⟩
    intro v hv
    constructor
    · intro hvt
      have hvs := hgood.2.1 v hvt
      rw [hv] at hvs
      exact hgood.1 (Option.some.inj hvs).symm
    · intro hvo
      have hvs := hgood.2.2 v hvo
      rw [hv] at hvs
      exact hgood.1 (Option.some.inj hvs).symm
  · intro root v hv p hp
    unfold movementPairs at hp
    rcases List.mem_flatMap.mp hp with ⟨kg, hkg, hpin⟩
    have hgood := goodMap_resolve root kg hkg
    cases ho : kg.2.origin with
    | none =>
      rw [ho] at hpin
      exact absurd hpin (List.not_mem_nil p)
    | some o =>
      rw [ho] at hpin
      rcases List.mem_map.mp hpin with ⟨t, ht, rfl⟩
      have hoid : o.id = some kg.1 := hgood.2.2 o ho
      have htid : t.id = some kg.1 := hgood.2.1 t ht
      constructor
      · intro he
        rw [show ((o, t).1 : PNode) = o from rfl] at he
        rw [he, hv] at hoid
        exact hgood.1 (Option.some.inj hoid).symm
      · intro he
        rw [show ((o, t).2 : PNode) = t from rfl] at he
        rw [he, hv] at htid
        exact hgood.1 (Option.some.inj htid).symm

/-- Witness for c10_empty_id_excluded: the root-form parse of `DP#`, and
on the concrete tree exMoveTree the node zEmpty (identifier the empty
string) is absent from the resolved `wh` group and from the single
emitted arc pair. -/
theorem c10_empty_id_excluded_witness :
    parseTree "DP#" = .ok (.mk "DP" [] (some "") []) ∧
    (¬ zEmpty ∈ (MGroup.mk (some dpWh2) [tWh]).traces ∧
     ¬ (MGroup.mk (some dpWh2) [tWh]).origin = some zEmpty) ∧
    (¬ (dpWh2, tWh).1 = zEmpty ∧ ¬ (dpWh2, tWh).2 = zEmpty) := by
  refine ⟨c10_empty_id_excluded.1, ?_, ?_⟩
  · exact (c10_empty_id_excluded.2.1 exMoveTree "wh" ⟨some dpWh2, [tWh]⟩ rfl).2 zEmpty rfl
  · exact c10_empty_id_excluded.2.2 exMoveTree zEmpty rfl (dpWh2, tWh)
      (by rw [show movementPairs exMoveTree = [(dpWh2, tWh)] from rfl]
          exact List.mem_singleton.mpr rfl)

mutual
/-- The geometry clone preserves all structural data. -/
theorem strip_clone : ∀ (n : Node), strip (clone n) = n
  | .mk l fs i cs => by
    rw [clone, strip, stripList_cloneList cs]

theorem stripList_cloneList : ∀ (cs : List Node), stripList (cloneList cs) = cs
  | [] => rfl
  | c :: cs => by
    rw [cloneList, stripList, strip_clone c, stripList_cloneList cs]
end

mutual
/-- The sizing pass changes only geometry, never structure. -/
theorem strip_firstWalk : ∀ (n : PNode), strip (firstWalk n).1 = strip n
  | .mk l fs i x y w h cs => by
    cases cs with
    | nil => rfl
    | cons c cs0 =>
      simp only [firstWalk, strip]
      rw [stripList_firstWalkList (c :: cs0)]

theorem stripList_firstWalkList :
    ∀ (cs : List PNode), stripList (firstWalkList cs).1 = stripList cs
  | [] => rfl
  | [c] => by
    simp only [firstWalkList, stripList]
    rw [strip_firstWalk c]
  | c :: c2 :: cs => by
    simp only [firstWalkList, stripList]
    rw [strip_firstWalk c]
    have := stripList_firstWalkList (c2 :: cs)
    simp only [stripList] at this
    rw [this]
end

mutual
/-- The placement pass changes only geometry, never structure. -/
theorem strip_secondWalk : ∀ (n : PNode) (ox oy : ℚ), strip (secondWalk n ox oy) = strip n
  | .mk l fs i x y w h cs, ox, oy => by
    rw [secondWalk, strip, strip, stripList_secondWalkList cs]

theorem stripList_secondWalkList :
    ∀ (cs : List PNode) (idx : Nat) (ox oy : ℚ),
      stripList (secondWalkList cs idx ox oy) = stripList cs
  | [], _, _, _ => rfl
  | c :: cs, idx, ox, oy => by
    rw [secondWalkList, stripList, stripList, strip_secondWalk c,
        stripList_secondWalkList cs]
end

mutual
/-- The normalization shift changes only geometry, never structure. -/
theorem strip_shiftX : ∀ (n : PNode) (d : ℚ), strip (shiftX n d) = strip n
  | .mk l fs i x y w h cs, d => by
    rw [shiftX, strip, strip, stripList_shiftXList cs]

theorem stripList_shiftXList :
    ∀ (cs : List PNode) (d : ℚ), stripList (shiftXList cs d) = stripList cs
  | [], _ => rfl
  | c :: cs, d => by
    rw [shiftXList, stripList, stripList, strip_shiftX c, stripList_shiftXList cs]
end

/-- C9: layout is a pure structural clone: projecting the geometry away
from the Positioned tree returned by layoutTree gives back exactly the
input Node tree, with every label, feature list, identifier and child
structure unchanged; all geometry lives only in the freshly built
Positioned tree.  In this functional embedding the input value is
immutable by construction, matching the source, whose layoutTree writes
x, y and parent fields only to the records created by its internal
clone. -/
theorem c9_layout_is_structural_clone (root : Node) : strip (layoutTree root) = root := by
  simp only [layoutTree]
  rw [strip_shiftX, strip_secondWalk, strip_firstWalk, strip_clone]

/-- Witness for c9_layout_is_structural_clone at the concrete tree
`[A b c]`. -/
theorem c9_layout_is_structural_clone_witness : strip (layoutTree exTreeABC) = exTreeABC :=
  c9_layout_is_structural_clone exTreeABC

/-- Concrete evaluation of layout on the parse of `[A b c]`: the root is
centered at x = 25, but both leaf children end up at x = 0 with width
36.  The placement pass computes the sibling shift but never applies it,
so every child receives the same horizontal offset as its parent. -/
theorem layoutTree_exTreeABC :
    layoutTree exTreeABC =
      .mk "A" [] none 25 0 36 22
        [.mk "b" [] none 0 50 36 22 [], .mk "c" [] none 0 50 36 22 []] := by
  norm_num [exTreeABC, layoutTree, clone, cloneList, measureLabel, boxWidth, labelText,
            Node.label, Node.features, firstWalk, firstWalkList, secondWalk, secondWalkList,
            treeMinX, treeMinXList, shiftX, shiftXList, PNode.x,
            show ("A" : String).length = 1 from rfl, show ("b" : String).length = 1 from rfl,
            show ("c" : String).length = 1 from rfl]

/-- C1 fails on the code: for the parsed tree of `[A b c]` the two
adjacent leaf siblings are both placed at x = 0 with width 36, so the
first sibling right edge (36) lies strictly to the right of the second
sibling left edge (0), violating the claimed
`c1.x + c1.width ≤ c2.x`.  The cause is visible in secondWalk: the
computed `shift` and `cx` are never used and the offset expression
passed to every child collapses to the parent offset. -/
theorem c1_sibling_overlap_failing_input :
    parseTree "[A b c]" = .ok exTreeABC ∧
    (layoutTree exTreeABC).children.map PNode.x = [0, 0] ∧
    (layoutTree exTreeABC).children.map PNode.width = [36, 36] ∧
    ¬ ((0 : ℚ) + 36 ≤ 0) := by
  refine ⟨rfl, ?_, ?_, by norm_num⟩
  · rw [layoutTree_exTreeABC]
    rfl
  · rw [layoutTree_exTreeABC]
    rfl

/-- C3 counterexample: in the positioned tree of `[A b c]` the internal
root node keeps its label-derived width 36; it does not equal the larger
of that width and the children sum plus gap (36 + 14 + 36 = 86), so the
claimed internal-node width formula fails on this tree.  The
`max(own, children sum)` quantity is only the subtree span returned by
the sizing pass, never stored in the width field. -/
theorem c3_internal_width_counterexample :
    (layoutTree exTreeABC).width = 36 ∧
    (layoutTree exTreeABC).children.map PNode.width = [36, 36] ∧
    ¬ ((36 : ℚ) = max 36 (36 + 14 + 36)) := by
  refine ⟨?_, ?_, by norm_num⟩
  · rw [layoutTree_exTreeABC]
    rfl
  · rw [layoutTree_exTreeABC]
    rfl

mutual
/-- Every node of a freshly cloned tree has the label-derived box width
and the constant height 22. -/
theorem wh_clone : ∀ (n : Node) (v : PNode), v ∈ preorder (clone n) →
    v.width = boxWidth v.label v.features ∧ v.height = 22
  | .mk l fs i cs, v, hv => by
    rw [clone, preorder] at hv
    rcases List.mem_cons.mp hv with rfl | hv
    · exact ⟨rfl, rfl⟩
    · exact wh_cloneList cs v hv

theorem wh_cloneList : ∀ (cs : List Node) (v : PNode), v ∈ preorderList (cloneList cs) →
    v.width = boxWidth v.label v.features ∧ v.height = 22
  | [], v, hv => absurd (by simpa [cloneList, preorderList] using hv) (List.not_mem_nil v)
  | c :: cs, v, hv => by
    rw [cloneList, preorderList] at hv
    rcases List.mem_append.mp hv with hv | hv
    · exact wh_clone c v hv
    · exact wh_cloneList cs v hv
end

mutual
/-- The sizing pass preserves the non-positional data of every node of
the preorder listing. -/
theorem stat_firstWalk : ∀ (n : PNode),
    (preorder (firstWalk n).1).map stat = (preorder n).map stat
  | .mk l fs i x y w h cs => by
    cases cs with
    | nil => rfl
    | cons c cs0 =>
      simp only [firstWalk, preorder, List.map_cons]
      rw [stat_firstWalkList (c :: cs0)]
      rfl

theorem stat_firstWalkList : ∀ (cs : List PNode),
    (preorderList (firstWalkList cs).1).map stat = (preorderList cs).map stat
  | [] => rfl
  | [c] => by
    simp only [firstWalkList, preorderList, List.map_append]
    rw [stat_firstWalk c]
  | c :: c2 :: cs => by
    simp only [firstWalkList, preorderList, List.map_append]
    rw [stat_firstWalk c]
    have := stat_firstWalkList (c2 :: cs)
    simp only [preorderList, List.map_append] at this
    rw [this]
end

mutual
/-- The placement pass preserves the non-positional data of every node
of the preorder listing. -/
theorem stat_secondWalk : ∀ (n : PNode) (ox oy : ℚ),
    (preorder (secondWalk n ox oy)).map stat = (preorder n).map stat
  | .mk l fs i x y w h cs, ox, oy => by
    rw [secondWalk, preorder, preorder, List.map_cons, List.map_cons,
        stat_secondWalkList cs]
    rfl

theorem stat_secondWalkList : ∀ (cs : List PNode) (idx : Nat) (ox oy : ℚ),
    (preorderList (secondWalkList cs idx ox oy)).map stat = (preorderList cs).map stat
  | [], _, _, _ => rfl
  | c :: cs, idx, ox, oy => by
    rw [secondWalkList, preorderList, preorderList, List.map_append, List.map_append,
        stat_secondWalk c, stat_secondWalkList cs]
end

mutual
/-- The normalization shift preserves the non-positional data of every
node of the preorder listing. -/
theorem stat_shiftX : ∀ (n : PNode) (d : ℚ),
    (preorder (shiftX n d)).map stat = (preorder n).map stat
  | .mk l fs i x y w h cs, d => by
    rw [shiftX, preorder, preorder, List.map_cons, List.map_cons, stat_shiftXList cs]
    rfl

theorem stat_shiftXList : ∀ (cs : List PNode) (d : ℚ),
    (preorderList (shiftXList cs d)).map stat = (preorderList cs).map stat
  | [], _ => rfl
  | c :: cs, d => by
    rw [shiftXList, preorderList, preorderList, List.map_append, List.map_append,
        stat_shiftX c, stat_shiftXList cs]
end

/-- C3 amended: in the positioned tree returned by layoutTree, every
node, leaf or internal, has width equal to its own label-derived width
`max(36, 8 x characters + 12)` measured over the label text and the
bracketed comma-joined feature badges, and every node has the fixed
height 22; the larger-of quantity involving the children sum plus gaps
is only the subtree span returned by the sizing pass, not the width
stored on the node. -/
theorem c3_box_size_amended (root : Node) (v : PNode)
    (hv : v ∈ preorder (layoutTree root)) :
    v.width = boxWidth v.label v.features ∧ v.height = 22 := by
  simp only [layoutTree] at hv
  have hstat : stat v ∈ (preorder (layoutTree root)).map stat :=
    List.mem_map_of_mem stat (by simpa only [layoutTree] using hv)
  rw [show (preorder (layoutTree root)).map stat = (preorder (clone root)).map stat by
        simp only [layoutTree]
        rw [stat_shiftX, stat_secondWalk, stat_firstWalk]] at hstat
  rcases List.mem_map.mp hstat with ⟨u, hu, hus⟩
  have hwh := wh_clone root u hu
  have h1 : u.label = v.label := congrArg (fun q => q.1) hus
  have h2 : u.features = v.features := congrArg (fun q => q.2.1) hus
  have h4 : u.width = v.width := congrArg (fun q => q.2.2.2.1) hus
  have h5 : u.height = v.height := congrArg (fun q => q.2.2.2.2) hus
  rw [← h4, ← h5, hwh.1, h1, h2]
  exact ⟨rfl, hwh.2⟩

/-- Witness for c3_box_size_amended: the root node of the layout of
`[A b c]` has width 36 = boxWidth and height 22. -/
theorem c3_box_size_amended_witness :
    (PNode.mk "A" [] none 25 0 36 22
        [.mk "b" [] none 0 50 36 22 [], .mk "c" [] none 0 50 36 22 []]) ∈
      preorder (layoutTree exTreeABC) ∧
    (PNode.mk "A" [] none 25 0 36 22
        [.mk "b" [] none 0 50 36 22 [], .mk "c" [] none 0 50 36 22 []]).width =
      boxWidth "A" [] ∧
    (PNode.mk "A" [] none 25 0 36 22
        [.mk "b" [] none 0 50 36 22 [], .mk "c" [] none 0 50 36 22 []]).height = 22 := by
  have hmem : (PNode.mk "A" [] none 25 0 36 22
      [.mk "b" [] none 0 50 36 22 [], .mk "c" [] none 0 50 36 22 []]) ∈
      preorder (layoutTree exTreeABC) := by
    rw [layoutTree_exTreeABC, preorder]
    exact List.mem_cons_self _ _
  have h := c3_box_size_amended exTreeABC _ hmem
  exact ⟨hmem, h.1, h.2⟩

mutual
/-- The normalization shift subtracts `d` from the x of every node of
the preorder listing. -/
theorem x_shiftX : ∀ (n : PNode) (d : ℚ),
    (preorder (shiftX n d)).map PNode.x = (preorder n).map fun v => v.x - d
  | .mk l fs i x y w h cs, d => by
    rw [shiftX, preorder, preorder, List.map_cons, List.map_cons, x_shiftXList cs]
    rfl

theorem x_shiftXList : ∀ (cs : List PNode) (d : ℚ),
    (preorderList (shiftXList cs d)).map PNode.x = (preorderList cs).map fun v => v.x - d
  | [], _ => rfl
  | c :: cs, d => by
    rw [shiftXList, preorderList, preorderList, List.map_append, List.map_append,
        x_shiftX c, x_shiftXList cs]
end

/-- The threaded minimum never exceeds its accumulator. -/
theorem treeMinXList_le_acc : ∀ (cs : List PNode) (acc : ℚ), treeMinXList acc cs ≤ acc
  | [], acc => le_refl acc
  | c :: cs, acc => le_trans (treeMinXList_le_acc cs _) (min_le_left _ _)

mutual
/-- The normalization scan minimum is a lower bound for the x of every
node of the tree. -/
theorem treeMinX_le : ∀ (n : PNode) (v : PNode), v ∈ preorder n → treeMinX n ≤ v.x
  | .mk l fs i x y w h cs, v, hv => by
    rw [preorder] at hv
    rw [treeMinX]
    rcases List.mem_cons.mp hv with rfl | hv
    · exact treeMinXList_le_acc cs x
    · exact treeMinXList_le cs x v hv

theorem treeMinXList_le : ∀ (cs : List PNode) (acc : ℚ) (v : PNode),
    v ∈ preorderList cs → treeMinXList acc cs ≤ v.x
  | c :: cs, acc, v, hv => by
    rw [preorderList] at hv
    rw [treeMinXList]
    rcases List.mem_append.mp hv with hv | hv
    · exact le_trans (le_trans (treeMinXList_le_acc cs _) (min_le_right _ _))
        (treeMinX_le c v hv)
    · exact treeMinXList_le cs _ v hv
end

mutual
/-- The normalization scan minimum is attained: it is the accumulator or
the x of some node of the listing. -/
theorem treeMinX_attained : ∀ (n : PNode), ∃ v ∈ preorder n, treeMinX n = v.x
  | .mk l fs i x y w h cs => by
    rw [treeMinX]
    rcases treeMinXList_attained cs x with heq | ⟨v, hv, hvx⟩
    · exact ⟨.mk l fs i x y w h cs, by rw [preorder]; exact List.mem_cons_self _ _, heq⟩
    · exact ⟨v, by rw [preorder]; exact List.mem_cons_of_mem _ hv, hvx⟩

theorem treeMinXList_attained : ∀ (cs : List PNode) (acc : ℚ),
    treeMinXList acc cs = acc ∨ ∃ v ∈ preorderList cs, treeMinXList acc cs = v.x
  | [], acc => Or.inl rfl
  | c :: cs, acc => by
    rw [treeMinXList]
    rcases treeMinXList_attained cs (min acc (treeMinX c)) with h | ⟨v, hv, hvx⟩
    · rcases min_choice acc (treeMinX c) with hm | hm
      · exact Or.inl (by rw [h, hm])
      · rcases treeMinX_attained c with ⟨v, hv, hvx⟩
        refine Or.inr ⟨v, ?_, by rw [h, hm, hvx]⟩
        rw [preorderList]
        exact List.mem_append_left _ hv
      
    · refine Or.inr ⟨v, ?_, hvx⟩
      rw [preorderList]
      exact List.mem_append_right _ hv
end

/-- C8: after normalization every node of the positioned tree has
nonnegative x, and the minimum x over all nodes is exactly 0: some node
sits at x = 0, so the leftmost box starts at coordinate 0. -/
theorem c8_normalized_min_x_zero (root : Node) :
    (∀ v ∈ preorder (layoutTree root), 0 ≤ v.x) ∧
    ∃ v ∈ preorder (layoutTree root), v.x = 0 := by
  simp only [layoutTree]
  constructor
  · intro v hv
    have hx : v.x ∈ (preorder (shiftX (secondWalk (firstWalk (clone root)).1 0 0)
        (treeMinX (secondWalk (firstWalk (clone root)).1 0 0)))).map PNode.x :=
      List.mem_map_of_mem PNode.x hv
    rw [x_shiftX] at hx
    rcases List.mem_map.mp hx with ⟨u, hu, hux⟩
    rw [← hux]
    exact sub_nonneg.mpr (treeMinX_le _ u hu)
  · rcases treeMinX_attained (secondWalk (firstWalk (clone root)).1 0 0) with ⟨u, hu, humin⟩
    have hmem : (u.x - treeMinX (secondWalk (firstWalk (clone root)).1 0 0)) ∈
        (preorder (shiftX (secondWalk (firstWalk (clone root)).1 0 0)
          (treeMinX (secondWalk (firstWalk (clone root)).1 0 0)))).map PNode.x := by
      rw [x_shiftX]
      exact List.mem_map_of_mem _ hu
    rcases List.mem_map.mp hmem with ⟨v, hv, hvx⟩
    exact ⟨v, hv, by rw [hvx, ← humin, sub_self]⟩

/-- Witness for c8_normalized_min_x_zero on the layout of `[A b c]`. -/
theorem c8_normalized_min_x_zero_witness :
    (∀ v ∈ preorder (layoutTree exTreeABC), 0 ≤ v.x) ∧
    ∃ v ∈ preorder (layoutTree exTreeABC), v.x = 0 :=
  c8_normalized_min_x_zero exTreeABC
